import Mathlib

/-!
Shallow embedding of the kilo_rs editor core (src/main.rs) and proofs about
its row model, render mapping, syntax classification, scrolling, editing,
search and file round-trip.

Rust `String`s are modelled as `List Char` (Unicode scalar values, matching
`str::chars`); `usize` arithmetic that cannot underflow in the reachable
branches is modelled with `Nat`.  The `Syntax` struct of the source is named
`SynRule` here, and `update_syntax` is named `update_hl`, purely to satisfy
lexical constraints of the development; their bodies follow the source
line by line.
-/

namespace KiloRs

/-- `KILO_RS_TAB_STOP` from the source. -/
def KILO_RS_TAB_STOP : Nat := 8

/-- `HL_HIGHLIGHT_NUMBERS` flag bit from the source. -/
def HL_HIGHLIGHT_NUMBERS : Nat := 1

/-- The `Highlight` enum. -/
inductive Highlight where
  | Normal
  | Number
deriving DecidableEq, Repr

/-- The `Syntax` struct: filetype, filematch and flags. -/
structure SynRule where
  filetype : List Char
  filematch : List (List Char)
  flags : Nat
deriving DecidableEq, Repr

/-- The single entry of `HLDB`: the rust rule with numeric highlighting. -/
def rustRule : SynRule :=
  { filetype := "rust".toList, filematch := ["rs".toList], flags := HL_HIGHLIGHT_NUMBERS }

/-- The `Row` struct: content, derived render, rsize and highlight vector. -/
structure Row where
  content : List Char
  render : List Char
  rsize : Nat
  hl : List Highlight
deriving DecidableEq, Repr

instance : Inhabited Row := ⟨⟨[], [], 0, []⟩⟩

/-- The `EditorConfig` struct, restricted to its pure state (the `stdout`
handle and the status-message fields are I/O glue that no claim touches). -/
structure EditorConfig where
  screen_rows : Nat
  screen_cols : Nat
  cx : Nat
  cy : Nat
  rx : Nat
  col_off : Nat
  row_off : Nat
  row : List Row
  filename : Option (List Char)
  dirty : Bool
  syn : Option SynRule
deriving DecidableEq, Repr

/-- A fresh editor configuration as built by `EditorConfig::new` (with an
arbitrary 80x24 terminal; the screen size plays no role in these claims). -/
def emptyEC : EditorConfig :=
  { screen_rows := 24, screen_cols := 80, cx := 0, cy := 0, rx := 0,
    col_off := 0, row_off := 0, row := [], filename := none,
    dirty := false, syn := none }

/-- `Vec::insert(at, x)` on lists: element `x` ends up at index `at`,
everything from `at` on shifts right by one. -/
def listInsert (l : List α) (atIdx : Nat) (x : α) : List α :=
  l.take atIdx ++ x :: l.drop atIdx

/-- `Vec::remove(at)` on lists: the element at index `at` disappears,
everything after shifts left by one. -/
def listRemove (l : List α) (atIdx : Nat) : List α :=
  l.take atIdx ++ l.drop (atIdx + 1)

/-- `char::is_ascii_punctuation`. -/
def isAsciiPunct (c : Char) : Bool :=
  (0x21 ≤ c.toNat && c.toNat ≤ 0x2F) || (0x3A ≤ c.toNat && c.toNat ≤ 0x40) ||
  (0x5B ≤ c.toNat && c.toNat ≤ 0x60) || (0x7B ≤ c.toNat && c.toNat ≤ 0x7E)

/-- `char::is_ascii_whitespace` (space, tab, newline, form feed, carriage return). -/
def isAsciiWs (c : Char) : Bool :=
  c = ' ' || c = '\t' || c = '\n' || c = Char.ofNat 12 || c = Char.ofNat 13

/-- `char::is_ascii_digit`. -/
def isAsciiDigit (c : Char) : Bool :=
  '0'.toNat ≤ c.toNat && c.toNat ≤ '9'.toNat

/-- `is_separator` from the source: ASCII punctuation, ASCII whitespace, or NUL. -/
def is_separator (c : Char) : Bool :=
  isAsciiPunct c || isAsciiWs c || c = Char.ofNat 0

/-- The classification loop of `update_syntax`: walks `render` and the
current `hl` in lockstep (both have length `rsize` after the resize),
carrying `prev_sep` and the highlight written at the previous column.
A column is overwritten with `Number` exactly in the source's branch;
otherwise it keeps the value the resize left there. -/
def hlLoop (hasNum : Bool) : List Char → List Highlight → Bool → Highlight → List Highlight
  | [], hl, _, _ => hl
  | _ :: _, [], _, _ => []
  | c :: cs, h :: hs, prevSep, prevHl =>
    if hasNum &&
        ((isAsciiDigit c && (prevSep || prevHl = Highlight.Number)) ||
         (c = '.' && prevHl = Highlight.Number)) then
      Highlight.Number :: hlLoop hasNum cs hs false Highlight.Number
    else
      h :: hlLoop hasNum cs hs (is_separator c) h

/-- `update_syntax` from the source: `hl.resize(rsize, Normal)` (old entries
are kept, only new slots are filled with `Normal`), then, if a rule is
active, run the classification loop over the first `rsize` render chars. -/
def update_hl (rule : Option SynRule) (row : Row) : Row :=
  let hl := row.hl.take row.rsize ++
    List.replicate (row.rsize - row.hl.length) Highlight.Normal
  match rule with
  | none => { row with hl := hl }
  | some r =>
    let hasNum := r.flags &&& HL_HIGHLIGHT_NUMBERS != 0
    { row with hl := hlLoop hasNum (row.render.take row.rsize) hl true Highlight.Normal }

/-- One step of the render-column accumulator shared by `row_cx_to_rx` and
`row_rx_to_cx`: a tab first adds `(TAB_STOP - 1) - rx % TAB_STOP`, then
every character adds 1. -/
def rxStep (rx : Nat) (c : Char) : Nat :=
  (if c = '\t' then rx + ((KILO_RS_TAB_STOP - 1) - rx % KILO_RS_TAB_STOP) else rx) + 1

/-- The loop of `row_cx_to_rx`, folding `rxStep` over a character list. -/
def cxToRxLoop : List Char → Nat → Nat
  | [], rx => rx
  | c :: cs, rx => cxToRxLoop cs (rxStep rx c)

/-- `row_cx_to_rx` from the source: walk the first `cx` content characters. -/
def row_cx_to_rx (row : Row) (cx : Nat) : Nat :=
  cxToRxLoop (row.content.take cx) 0

/-- The loop of `row_rx_to_cx`: arguments are the remaining content, the
current content index, the accumulated `cur_rx`, and `ret_cx` (the index of
the previously processed character, 0 initially). Returns the current index
as soon as `cur_rx` passes `rx`, else `ret_cx` at the end. -/
def rxToCxLoop (rx : Nat) : List Char → Nat → Nat → Nat → Nat
  | [], _, _, retCx => retCx
  | c :: cs, cxIdx, curRx, _ =>
    let curRx2 := rxStep curRx c
    if rx < curRx2 then cxIdx else rxToCxLoop rx cs (cxIdx + 1) curRx2 cxIdx

/-- `row_rx_to_cx` from the source. -/
def row_rx_to_cx (row : Row) (rx : Nat) : Nat :=
  rxToCxLoop rx row.content 0 0 0

/-- The render-building loop of `update_row`: a tab pushes one space and then
more spaces until `idx` is a multiple of `TAB_STOP` (i.e.
`TAB_STOP - idx % TAB_STOP` spaces in total); any other character is pushed
as itself. Returns the render string and the final `idx`. -/
def renderLoop : List Char → Nat → List Char × Nat
  | [], idx => ([], idx)
  | c :: cs, idx =>
    if c = '\t' then
      let n := KILO_RS_TAB_STOP - idx % KILO_RS_TAB_STOP
      let r := renderLoop cs (idx + n)
      (List.replicate n ' ' ++ r.1, r.2)
    else
      let r := renderLoop cs (idx + 1)
      (c :: r.1, r.2)

/-- `update_row` from the source: rebuild `render`, set `rsize` to the final
`idx`, then run `update_syntax`. -/
def update_row (rule : Option SynRule) (row : Row) : Row :=
  let r := renderLoop row.content 0
  update_hl rule { row with render := r.1, rsize := r.2 }

/-- `insert_row` from the source: silently returns when `at > row.len()`,
otherwise inserts a fresh row at `at`, updates it in place, and marks dirty. -/
def insert_row (config : EditorConfig) (atIdx : Nat) (s : List Char) : EditorConfig :=
  if atIdx > config.row.length then config
  else
    let newRow : Row := { content := s, render := [], rsize := 0, hl := [] }
    let rows := listInsert config.row atIdx newRow
    let rows := rows.set atIdx (update_row config.syn (rows.getD atIdx default))
    { config with row := rows, dirty := true }

/-- `del_row` from the source. -/
def del_row (config : EditorConfig) (atIdx : Nat) : EditorConfig :=
  if atIdx ≥ config.row.length then config
  else { config with row := listRemove config.row atIdx, dirty := true }

/-- `row_insert_char` from the source: clamp `at` to the content length,
insert, recompute. -/
def row_insert_char (rule : Option SynRule) (row : Row) (atIdx : Nat) (c : Char) : Row :=
  let a := if atIdx > row.content.length then row.content.length else atIdx
  update_row rule { row with content := listInsert row.content a c }

/-- `row_append_string` from the source. -/
def row_append_string (rule : Option SynRule) (row : Row) (s : List Char) : Row :=
  update_row rule { row with content := row.content ++ s }

/-- `row_del_char` from the source: no-op when `at >= content.len()`. -/
def row_del_char (rule : Option SynRule) (row : Row) (atIdx : Nat) : Row :=
  if atIdx ≥ row.content.length then row
  else update_row rule { row with content := listRemove row.content atIdx }

/-- `insert_char` from the source: append an empty row first when the cursor
sits on the virtual past-end row, then insert into the current row, advance
`cx` and mark dirty. -/
def insert_char (config : EditorConfig) (c : Char) : EditorConfig :=
  let config :=
    if config.cy = config.row.length then insert_row config config.row.length []
    else config
  let rows := config.row.set config.cy
    (row_insert_char config.syn (config.row.getD config.cy default) config.cx c)
  { config with row := rows, cx := config.cx + 1, dirty := true }

/-- `insert_newline` from the source: at `cx = 0` insert an empty row before
the current one; otherwise move `content[cx..]` into a new row right after
and truncate the current row to `content[0..cx)`. Then `cy += 1`, `cx = 0`. -/
def insert_newline (config : EditorConfig) : EditorConfig :=
  let config :=
    if config.cx = 0 then insert_row config config.cy []
    else
      let content := (config.row.getD config.cy default).content
      let config := insert_row config (config.cy + 1) (content.drop config.cx)
      let rows := config.row.set config.cy
        (update_row config.syn
          { config.row.getD config.cy default with content := content.take config.cx })
      { config with row := rows }
  { config with cy := config.cy + 1, cx := 0, dirty := true }

/-- `del_char` from the source: no-op on the virtual past-end row and at the
true buffer start; deletes left of the cursor when `cx > 0`; otherwise joins
the current row onto the previous one. -/
def del_char (config : EditorConfig) : EditorConfig :=
  if config.cy = config.row.length then config
  else if config.cx = 0 ∧ config.cy = 0 then config
  else if config.cx > 0 then
    let r := row_del_char config.syn (config.row.getD config.cy default) (config.cx - 1)
    { config with row := config.row.set config.cy r,
                  cx := config.cx - 1, dirty := true }
  else
    let cx := (config.row.getD (config.cy - 1) default).content.length
    let content := (config.row.getD config.cy default).content
    let prev := row_append_string config.syn (config.row.getD (config.cy - 1) default) content
    let config := { config with cx := cx,
                                row := config.row.set (config.cy - 1) prev }
    let config := del_row config config.cy
    { config with cy := config.cy - 1, dirty := true }

/-- `rows_to_string` from the source: fold `writeln` over the rows, i.e.
append each row's content followed by a newline. -/
def rows_to_string (rows : List Row) : List Char :=
  rows.foldl (fun output r => output ++ r.content ++ ['\n']) []

/-- Drop one trailing carriage return, as `BufRead::lines` does after it has
removed the terminating newline of a line. -/
def dropTrailingCr (l : List Char) : List Char :=
  if l.getLast? = some (Char.ofNat 13) then l.dropLast else l

/-- The iteration of `BufRead::lines`: cut the text at each newline; a chunk
that was terminated by a newline also loses one trailing carriage return; a
final chunk without a terminator is yielded as-is; no chunk is yielded for
an empty remainder. `acc` is the part of the current line read so far. -/
def linesAux (acc : List Char) : List Char → List (List Char)
  | [] => if acc.isEmpty then [] else [acc]
  | c :: cs =>
    if c = '\n' then dropTrailingCr acc :: linesAux [] cs
    else linesAux (acc ++ [c]) cs

/-- `BufRead::lines` over a whole text. -/
def linesOf (s : List Char) : List (List Char) :=
  linesAux [] s

/-- The row-loading loop of `open` from the source: for each line of the
file text, `insert_row` at the end of the buffer; finally clear `dirty`.
(The file handle and the filename/syntax selection are I/O glue.) -/
def openRows (config : EditorConfig) (text : List Char) : EditorConfig :=
  let config := (linesOf text).foldl (fun cfg line => insert_row cfg cfg.row.length line) config
  { config with dirty := false }

/-- The abstract key codes `find_callback` inspects. -/
inductive KeyCode where
  | Enter
  | Right
  | Down
  | Left
  | Up
  | Esc
  | Char (c : Char)
  | Other
deriving DecidableEq, Repr

/-- The search state held in `find_callback`'s statics: `LAST_MATCH`
(`-1` = none) and `DIRECTION` (`1` or `-1`). -/
structure FindState where
  last_match : Int
  direction : Int
deriving DecidableEq, Repr

/-- `str::find` on character lists: does `hay` start with `needle`? -/
def beginsWith : List Char → List Char → Bool
  | _, [] => true
  | [], _ :: _ => false
  | c :: cs, d :: ds => c = d && beginsWith cs ds

/-- `str::find` on character lists: index of the first occurrence of
`needle` as a contiguous sublist of `hay`. -/
def findSub (needle : List Char) : List Char → Option Nat
  | [] => if needle.isEmpty then some 0 else none
  | c :: cs =>
    if beginsWith (c :: cs) needle then some 0
    else match findSub needle cs with
         | some i => some (i + 1)
         | none => none

/-- The step at the head of `find_callback`'s loop: `current += direction`,
then wrap `-1` to `len - 1` and `len` to `0`. -/
def wrapStep (len : Nat) (direction current : Int) : Int :=
  let current := current + direction
  if current = -1 then (len : Int) - 1
  else if current = (len : Int) then 0
  else current

/-- The scan loop of `find_callback`: runs at most `fuel` times (the source
uses `row.len()`), stepping `current` by `direction` with wrap-around; the
first row whose render contains the query moves the cursor, forces
`row_off := row.len()` and records the match. -/
def findLoop (config : EditorConfig) (query : List Char) (direction : Int) :
    Nat → Int → Int → EditorConfig × Int
  | 0, _, lastMatch => (config, lastMatch)
  | fuel + 1, current, lastMatch =>
    let current := wrapStep config.row.length direction current
    let r := config.row.getD current.toNat default
    match findSub query r.render with
    | some pos =>
      ({ config with cy := current.toNat, cx := row_rx_to_cx r pos,
                     row_off := config.row.length }, current)
    | none => findLoop config query direction fuel current lastMatch

/-- The sequence of row indices the scan visits: `visit len dir start k` is
the value of `current` after `k` iterations of the loop head starting from
`start`. -/
def visit (len : Nat) (direction start : Int) : Nat → Int
  | 0 => start
  | k + 1 => wrapStep len direction (visit len direction start k)

/-- `find_callback` from the source, with the two statics made explicit
state: key handling first (Enter resets and returns; arrows set the
direction; anything else resets), then the wrapped scan. -/
def find_callback (config : EditorConfig) (st : FindState) (query : List Char)
    (code : KeyCode) : EditorConfig × FindState :=
  if code = KeyCode.Enter then (config, { last_match := -1, direction := 1 })
  else
    let st :=
      if code = KeyCode.Right ∨ code = KeyCode.Down then { st with direction := 1 }
      else if code = KeyCode.Left ∨ code = KeyCode.Up then { st with direction := -1 }
      else { last_match := (-1 : Int), direction := 1 }
    let st := if st.last_match = -1 then { st with direction := 1 } else st
    let r := findLoop config query st.direction config.row.length st.last_match st.last_match
    (r.1, { st with last_match := r.2 })

/-- `scroll` from the source: recompute `rx` (0 on the virtual past-end
row), then clamp `row_off` against `cy` and `col_off` against `rx`. -/
def scroll (config : EditorConfig) : EditorConfig :=
  let rx :=
    if config.cy < config.row.length then
      row_cx_to_rx (config.row.getD config.cy default) config.cx
    else 0
  let row_off := if config.cy < config.row_off then config.cy else config.row_off
  let row_off :=
    if config.cy ≥ row_off + config.screen_rows then config.cy - config.screen_rows + 1
    else row_off
  let col_off := if rx < config.col_off then rx else config.col_off
  let col_off :=
    if rx ≥ col_off + config.screen_cols then rx - config.screen_cols + 1
    else col_off
  { config with rx := rx, row_off := row_off, col_off := col_off }

/-! ## Render-mapper lemmas -/

lemma rxStep_gt (rx : Nat) (c : Char) : rx < rxStep rx c := by
  unfold rxStep; split <;> omega

lemma cxToRxLoop_le : ∀ (l : List Char) (rx : Nat), rx ≤ cxToRxLoop l rx
  | [], rx => Nat.le_refl rx
  | c :: cs, rx =>
    Nat.le_trans (Nat.le_of_lt (rxStep_gt rx c)) (cxToRxLoop_le cs (rxStep rx c))

lemma cxToRxLoop_append : ∀ (l₁ l₂ : List Char) (rx : Nat),
    cxToRxLoop (l₁ ++ l₂) rx = cxToRxLoop l₂ (cxToRxLoop l₁ rx)
  | [], _, _ => rfl
  | c :: cs, l₂, rx => cxToRxLoop_append cs l₂ (rxStep rx c)

lemma rxToCxLoop_inv : ∀ (l : List Char) (cx : Nat), cx < l.length →
    ∀ (cxIdx curRx retCx : Nat),
      rxToCxLoop (cxToRxLoop (l.take cx) curRx) l cxIdx curRx retCx = cxIdx + cx := by
  intro l
  induction l with
  | nil => intro cx h; simp at h
  | cons c cs ih =>
    intro cx h cxIdx curRx retCx
    cases cx with
    | zero =>
      show rxToCxLoop (cxToRxLoop [] curRx) (c :: cs) cxIdx curRx retCx = cxIdx + 0
      simp only [cxToRxLoop, rxToCxLoop]
      rw [if_pos (rxStep_gt curRx c)]
      omega
    | succ n =>
      show rxToCxLoop (cxToRxLoop (c :: cs.take n) curRx) (c :: cs) cxIdx curRx retCx
        = cxIdx + (n + 1)
      simp only [cxToRxLoop, rxToCxLoop]
      rw [if_neg (by
        have := cxToRxLoop_le (cs.take n) (rxStep curRx c)
        omega)]
      have hn : n < cs.length := by simpa using Nat.lt_of_succ_lt_succ h
      rw [ih n hn (cxIdx + 1) (rxStep curRx c) cxIdx]
      omega

lemma rxToCxLoop_sat : ∀ (l : List Char) (rx cxIdx curRx retCx : Nat),
    cxToRxLoop l curRx ≤ rx →
    rxToCxLoop rx l cxIdx curRx retCx = if l.isEmpty then retCx else cxIdx + l.length - 1 := by
  intro l
  induction l with
  | nil => intro rx cxIdx curRx retCx _; rfl
  | cons c cs ih =>
    intro rx cxIdx curRx retCx hle
    have hle2 : cxToRxLoop cs (rxStep curRx c) ≤ rx := hle
    have hstep : rxStep curRx c ≤ rx :=
      Nat.le_trans (cxToRxLoop_le cs (rxStep curRx c)) hle2
    simp only [rxToCxLoop]
    rw [if_neg (by omega)]
    rw [ih rx (cxIdx + 1) (rxStep curRx c) cxIdx hle2]
    cases cs with
    | nil => simp
    | cons d ds =>
      simp only [List.isEmpty_cons, List.length_cons, Bool.false_eq_true, if_false]
      omega

lemma rxToCxLoop_lt : ∀ (l : List Char) (rx cxIdx curRx retCx : Nat), l ≠ [] →
    rxToCxLoop rx l cxIdx curRx retCx < cxIdx + l.length := by
  intro l
  induction l with
  | nil => intro _ _ _ _ h; exact absurd rfl h
  | cons c cs ih =>
    intro rx cxIdx curRx retCx _
    simp only [rxToCxLoop]
    split
    · simp only [List.length_cons]
      omega
    · cases cs with
      | nil =>
        show rxToCxLoop rx [] (cxIdx + 1) (rxStep curRx c) cxIdx < cxIdx + 1
        simp [rxToCxLoop]
      | cons d ds =>
        have := ih rx (cxIdx + 1) (rxStep curRx c) cxIdx (by simp)
        simp only [List.length] at this ⊢
        omega

lemma renderLoop_snd : ∀ (l : List Char) (idx : Nat),
    (renderLoop l idx).2 = idx + (renderLoop l idx).1.length := by
  intro l
  induction l with
  | nil => intro idx; rfl
  | cons c cs ih =>
    intro idx
    by_cases hc : c = '\t'
    · subst hc
      simp [renderLoop, ih]
      omega
    · simp [renderLoop, hc, ih]
      omega

lemma renderLoop_snd_eq : ∀ (l : List Char) (idx : Nat),
    (renderLoop l idx).2 = cxToRxLoop l idx := by
  intro l
  induction l with
  | nil => intro idx; rfl
  | cons c cs ih =>
    intro idx
    by_cases hc : c = '\t'
    · subst hc
      have hmod : idx % KILO_RS_TAB_STOP < KILO_RS_TAB_STOP := Nat.mod_lt _ (by decide)
      have h1 : (renderLoop ('\t' :: cs) idx).2 =
          (renderLoop cs (idx + (KILO_RS_TAB_STOP - idx % KILO_RS_TAB_STOP))).2 := by
        simp [renderLoop]
      have h2 : cxToRxLoop ('\t' :: cs) idx = cxToRxLoop cs (rxStep idx '\t') := rfl
      have h3 : rxStep idx '\t' = idx + (KILO_RS_TAB_STOP - idx % KILO_RS_TAB_STOP) := by
        simp [rxStep, KILO_RS_TAB_STOP] at hmod ⊢
        omega
      rw [h1, h2, h3, ih]
    · have h1 : (renderLoop (c :: cs) idx).2 = (renderLoop cs (idx + 1)).2 := by
        simp [renderLoop, hc]
      have h2 : cxToRxLoop (c :: cs) idx = cxToRxLoop cs (idx + 1) := by
        simp [cxToRxLoop, rxStep, hc]
      rw [h1, h2, ih]

lemma update_hl_content (rule : Option SynRule) (row : Row) :
    (update_hl rule row).content = row.content := by
  unfold update_hl; cases rule <;> rfl

lemma update_hl_render (rule : Option SynRule) (row : Row) :
    (update_hl rule row).render = row.render := by
  unfold update_hl; cases rule <;> rfl

lemma update_hl_rsize (rule : Option SynRule) (row : Row) :
    (update_hl rule row).rsize = row.rsize := by
  unfold update_hl; cases rule <;> rfl

lemma update_row_content (rule : Option SynRule) (row : Row) :
    (update_row rule row).content = row.content := by
  unfold update_row; rw [update_hl_content]

lemma update_row_render (rule : Option SynRule) (row : Row) :
    (update_row rule row).render = (renderLoop row.content 0).1 := by
  unfold update_row; rw [update_hl_render]

lemma update_row_rsize (rule : Option SynRule) (row : Row) :
    (update_row rule row).rsize = (renderLoop row.content 0).2 := by
  unfold update_row; rw [update_hl_rsize]

/-- Specification-side relation for C1: `TabExpand idx content render` holds
when `render` is `content` with every tab expanded to between 1 and
`TAB_STOP` spaces landing exactly on a tab-stop boundary (`idx` is the
render column at which `content` starts), and every other character mapped
to itself, one for one. -/
inductive TabExpand : Nat → List Char → List Char → Prop where
  | nil (idx : Nat) : TabExpand idx [] []
  | tab (idx n : Nat) (cs r : List Char) :
      1 ≤ n → n ≤ KILO_RS_TAB_STOP → (idx + n) % KILO_RS_TAB_STOP = 0 →
      TabExpand (idx + n) cs r →
      TabExpand idx ('\t' :: cs) (List.replicate n ' ' ++ r)
  | char (idx : Nat) (c : Char) (cs r : List Char) :
      c ≠ '\t' → TabExpand (idx + 1) cs r → TabExpand idx (c :: cs) (c :: r)

lemma renderLoop_tabExpand : ∀ (l : List Char) (idx : Nat),
    TabExpand idx l (renderLoop l idx).1 := by
  intro l
  induction l with
  | nil => intro idx; exact TabExpand.nil idx
  | cons c cs ih =>
    intro idx
    by_cases hc : c = '\t'
    · subst hc
      have hmod : idx % KILO_RS_TAB_STOP < KILO_RS_TAB_STOP := Nat.mod_lt _ (by decide)
      simp only [renderLoop, if_pos rfl]
      refine TabExpand.tab idx _ cs _ ?_ ?_ ?_ (ih _)
      · simp only [KILO_RS_TAB_STOP] at hmod ⊢; omega
      · simp only [KILO_RS_TAB_STOP] at hmod ⊢; omega
      · simp only [KILO_RS_TAB_STOP] at hmod ⊢; omega
    · simp only [renderLoop, if_neg hc]
      exact TabExpand.char idx c cs _ hc (ih _)

/-- C1: after `update_row`, the render string is the content with every tab
expanded to between 1 and 8 spaces ending exactly on a multiple of the
tab-stop width 8, every non-tab character mapped to itself, and `rsize`
equal to the length of the render; for content `"a\tb"` the render is
`"a"` followed by 7 spaces followed by `"b"` with `rsize = 9`. -/
theorem C1_update_row_tab_expansion :
    (∀ (rule : Option SynRule) (row : Row),
      (update_row rule row).rsize = (update_row rule row).render.length ∧
      TabExpand 0 row.content (update_row rule row).render) ∧
    (update_row none ⟨"a\tb".toList, [], 0, []⟩).render = "a       b".toList ∧
    (update_row none ⟨"a\tb".toList, [], 0, []⟩).rsize = 9 := by
  refine ⟨fun rule row => ⟨?_, ?_⟩, by decide, by decide⟩
  · rw [update_row_rsize, update_row_render, renderLoop_snd]
    omega
  · rw [update_row_render]
    exact renderLoop_tabExpand row.content 0

lemma row_cx_to_rx_le_succ (row : Row) (cx : Nat) :
    row_cx_to_rx row cx ≤ row_cx_to_rx row (cx + 1) := by
  unfold row_cx_to_rx
  rw [List.take_succ, cxToRxLoop_append]
  cases row.content[cx]? with
  | none => exact le_rfl
  | some c =>
    simp only [Option.toList]
    exact Nat.le_of_lt (rxStep_gt _ c)

/-- C2: `row_cx_to_rx` is monotone non-decreasing in `cx`, and
`row_rx_to_cx` is its left-inverse at every `cx` strictly inside the
content (the composite can only fail at the clamped boundary
`cx = content.length`). -/
theorem C2_render_mapper_left_inverse :
    ∀ (row : Row) (cx₁ cx₂ cx : Nat),
      (cx₁ ≤ cx₂ → row_cx_to_rx row cx₁ ≤ row_cx_to_rx row cx₂) ∧
      (cx < row.content.length → row_rx_to_cx row (row_cx_to_rx row cx) = cx) := by
  intro row cx₁ cx₂ cx
  constructor
  · intro hle
    induction cx₂ with
    | zero => have : cx₁ = 0 := by omega
              rw [this]
    | succ n ih =>
      rcases Nat.lt_or_ge cx₁ (n + 1) with h | h
      · exact Nat.le_trans (ih (by omega)) (row_cx_to_rx_le_succ row n)
      · have : cx₁ = n + 1 := by omega
        rw [this]
  · intro h
    unfold row_cx_to_rx row_rx_to_cx
    simpa using rxToCxLoop_inv row.content cx h 0 0 0

/-- C2 witness: the composite is the identity at a concrete interior
column of the row `"a\tb"`. -/
theorem C2_witness :
    row_rx_to_cx ⟨"a\tb".toList, [], 0, []⟩ (row_cx_to_rx ⟨"a\tb".toList, [], 0, []⟩ 1) = 1 :=
  (C2_render_mapper_left_inverse ⟨"a\tb".toList, [], 0, []⟩ 0 2 1).2 (by decide)

/-- C10: a render column at or past the row's total render width maps back
to the last content index `content.length - 1` (not to `content.length`);
an empty row maps every render column to 0; hence the produced content
column is always strictly below the length of non-empty content.  The last
conjunct ties the "total render width" to `rsize` of an updated row. -/
theorem C10_rx_to_cx_clamps_to_last_index :
    ∀ (row : Row) (rx : Nat),
      (row.content = [] → row_rx_to_cx row rx = 0) ∧
      (row_cx_to_rx row row.content.length ≤ rx →
        row_rx_to_cx row rx = row.content.length - 1) ∧
      (row.content ≠ [] → row_rx_to_cx row rx < row.content.length) ∧
      (∀ (rule : Option SynRule) (r0 : Row),
        (update_row rule r0).rsize =
          row_cx_to_rx (update_row rule r0) (update_row rule r0).content.length) := by
  intro row rx
  refine ⟨?_, ?_, ?_, ?_⟩
  · intro h; unfold row_rx_to_cx; rw [h]; rfl
  · intro h
    unfold row_rx_to_cx
    unfold row_cx_to_rx at h
    rw [List.take_length] at h
    rw [rxToCxLoop_sat row.content rx 0 0 0 h]
    cases row.content <;> simp
  · intro h
    unfold row_rx_to_cx
    have := rxToCxLoop_lt row.content rx 0 0 0 h
    omega
  · intro rule r0
    rw [update_row_rsize]
    unfold row_cx_to_rx
    rw [update_row_content, List.take_length, renderLoop_snd_eq]

/-- C10 witness: on the row `"ab"` (render width 2) the render column 5
maps back to content column 1, the last index. -/
theorem C10_witness :
    row_rx_to_cx ⟨"ab".toList, [], 0, []⟩ 5 = ("ab".toList.length - 1 : Nat) :=
  (C10_rx_to_cx_clamps_to_last_index ⟨"ab".toList, [], 0, []⟩ 5).2.1 (by decide)

/-! ## Scroll invariant (C3) -/

/-- C3: after `scroll`, with a viewport of positive height and width, the
cursor row lies inside the vertical window and the recomputed render
column lies inside the horizontal window, for any starting offsets and any
cursor position; `rx` is the render projection of `cx` (0 on the virtual
past-end row). -/
theorem C3_scroll_invariant :
    ∀ (config : EditorConfig),
      0 < config.screen_rows → 0 < config.screen_cols →
      (scroll config).row_off ≤ (scroll config).cy ∧
      (scroll config).cy < (scroll config).row_off + (scroll config).screen_rows ∧
      (scroll config).col_off ≤ (scroll config).rx ∧
      (scroll config).rx < (scroll config).col_off + (scroll config).screen_cols ∧
      (scroll config).rx = (if config.cy < config.row.length then
        row_cx_to_rx (config.row.getD config.cy default) config.cx else 0) := by
  intro config hr hc
  unfold scroll
  dsimp only
  refine ⟨?_, ?_, ?_, ?_, rfl⟩ <;> split_ifs <;> omega

/-- C3 witness: the invariant holds at a concrete configuration. -/
theorem C3_witness : (scroll emptyEC).row_off ≤ (scroll emptyEC).cy :=
  (C3_scroll_invariant emptyEC (by decide) (by decide)).1

/-! ## Syntax classification (C4) -/

/-- A concrete reachable row state: load the line `"1a"` with the rust rule
active (so its highlight is `[Number, Normal]`), then insert the character
`a` at content column 0. -/
def c4Row : Row :=
  row_insert_char (some rustRule) (update_row (some rustRule) ⟨"1a".toList, [], 0, []⟩) 0 'a'

/-- C4: the code does not default every highlight column to `Normal` on
re-classification: `Vec::resize` keeps the pre-existing entries, so after
inserting `a` in front of `"1a"` the stale `Number` of the old column 0
survives under the non-digit `a`, and then propagates `Number` to the digit
at column 1, which the claim's rule would classify `Normal` (previous
character `a` is not a separator and, per the claim, column 0 is `Normal`).
The final conjunct shows the resize alone (rule absent) also keeps a stale
`Number` instead of defaulting to `Normal`. -/
theorem C4_update_syntax_stale_highlight :
    c4Row.content = "a1a".toList ∧
    c4Row.render = "a1a".toList ∧
    c4Row.hl = [Highlight.Number, Highlight.Number, Highlight.Normal] ∧
    isAsciiDigit 'a' = false ∧ is_separator 'a' = false ∧
    (update_hl none ⟨"a".toList, "a".toList, 1, [Highlight.Number]⟩).hl
      = [Highlight.Number] := by
  decide

/-! ## Row store (C5) -/

lemma getD_middle {α : Type} : ∀ (l₁ : List α) (x : α) (l₂ : List α) (d : α),
    (l₁ ++ x :: l₂).getD l₁.length d = x
  | [], _, _, _ => rfl
  | _ :: l₁, x, l₂, d => getD_middle l₁ x l₂ d

lemma set_middle {α : Type} : ∀ (l₁ : List α) (x y : α) (l₂ : List α),
    (l₁ ++ x :: l₂).set l₁.length y = l₁ ++ y :: l₂
  | [], _, _, _ => rfl
  | a :: l₁, x, y, l₂ => congrArg (a :: ·) (set_middle l₁ x y l₂)

lemma insert_row_rows (config : EditorConfig) (atIdx : Nat) (s : List Char)
    (h : atIdx ≤ config.row.length) :
    (insert_row config atIdx s).row =
      config.row.take atIdx ++ update_row config.syn ⟨s, [], 0, []⟩ :: config.row.drop atIdx := by
  obtain ⟨l₁, l₂, hsplit, hlen⟩ : ∃ l₁ l₂, config.row = l₁ ++ l₂ ∧ l₁.length = atIdx :=
    ⟨_, _, (List.take_append_drop atIdx config.row).symm, by rw [List.length_take]; omega⟩
  unfold insert_row listInsert
  rw [if_neg (by omega)]
  dsimp only
  rw [hsplit, ← hlen, List.take_left, List.drop_left, getD_middle, set_middle]

/-- C5 (amended): `insert_row` past the end is a silent no-op, not an
error; in range, the freshly recomputed row lands at index `at`, every row
at or after `at` shifts up one position with the order preserved, and the
buffer is marked dirty. -/
theorem C5_insert_row_amended :
    ∀ (config : EditorConfig) (atIdx : Nat) (s : List Char),
      (config.row.length < atIdx → insert_row config atIdx s = config) ∧
      (atIdx ≤ config.row.length →
        (insert_row config atIdx s).row =
          config.row.take atIdx ++
            update_row config.syn ⟨s, [], 0, []⟩ :: config.row.drop atIdx ∧
        (insert_row config atIdx s).dirty = true) := by
  intro config atIdx s
  constructor
  · intro h
    unfold insert_row
    rw [if_pos (by omega)]
  · intro h
    refine ⟨insert_row_rows config atIdx s h, ?_⟩
    unfold insert_row
    rw [if_neg (by omega)]

/-- C5 counterexample: inserting at `at = rows.length + 1` produces no
error of any kind — the configuration is returned unchanged (no row added,
`dirty` still false). -/
theorem C5_insert_row_oob_is_silent_noop :
    insert_row emptyEC 1 "x".toList = emptyEC := by decide

/-- C5 witness: an in-range insert marks the buffer dirty. -/
theorem C5_witness :
    (insert_row emptyEC 0 "x".toList).dirty = true :=
  ((C5_insert_row_amended emptyEC 0 "x".toList).2 (by decide)).2

/-! ## Incremental search (C6) -/

lemma findSub_nil_of_ne (query : List Char) (h : query ≠ []) :
    findSub query [] = none := by
  unfold findSub
  rw [if_neg (by simpa [List.isEmpty_iff] using h)]

lemma row_no_match (config : EditorConfig) (query : List Char)
    (hq : query ≠ [])
    (hnone : ∀ r ∈ config.row, findSub query r.render = none) :
    ∀ i : Nat, findSub query (config.row.getD i default).render = none := by
  intro i
  by_cases h : i < config.row.length
  · rw [List.getD_eq_getElem config.row default h]
    exact hnone _ (List.getElem_mem h)
  · rw [List.getD_eq_default config.row default (by omega)]
    exact findSub_nil_of_ne query hq

lemma findLoop_no_match (config : EditorConfig) (query : List Char)
    (hq : query ≠ [])
    (hnone : ∀ r ∈ config.row, findSub query r.render = none) :
    ∀ (dir : Int) (fuel : Nat) (current lm : Int),
      findLoop config query dir fuel current lm = (config, lm) := by
  intro dir fuel
  induction fuel with
  | zero => intro current lm; rfl
  | succ n ih =>
    intro current lm
    unfold findLoop
    dsimp only
    rw [row_no_match config query hq hnone]
    exact ih _ lm

lemma visit_succ_shift (len : Nat) (dir start : Int) :
    ∀ k : Nat, visit len dir start (k + 1) = visit len dir (wrapStep len dir start) k
  | 0 => rfl
  | k + 1 => congrArg (wrapStep len dir) (visit_succ_shift len dir start k)

lemma findLoop_first_match (config : EditorConfig) (query : List Char) (dir : Int) :
    ∀ (k fuel : Nat) (start lm : Int), k < fuel →
      (∀ j : Nat, j < k →
        findSub query
          ((config.row.getD (visit config.row.length dir start (j + 1)).toNat default).render)
          = none) →
      ∀ pos : Nat,
        findSub query
          ((config.row.getD (visit config.row.length dir start (k + 1)).toNat default).render)
          = some pos →
        findLoop config query dir fuel start lm =
          ({ config with
              cy := (visit config.row.length dir start (k + 1)).toNat,
              cx := row_rx_to_cx
                (config.row.getD (visit config.row.length dir start (k + 1)).toNat default)
                pos,
              row_off := config.row.length },
            visit config.row.length dir start (k + 1)) := by
  intro k
  induction k with
  | zero =>
    intro fuel start lm hk _ pos hmatch
    obtain ⟨f, rfl⟩ : ∃ f, fuel = f + 1 := ⟨fuel - 1, by omega⟩
    have hv : visit config.row.length dir start 1 = wrapStep config.row.length dir start := rfl
    rw [hv] at hmatch
    unfold findLoop
    dsimp only
    rw [hmatch, hv]
  | succ k ih =>
    intro fuel start lm hk hnone pos hmatch
    obtain ⟨f, rfl⟩ : ∃ f, fuel = f + 1 := ⟨fuel - 1, by omega⟩
    have hv : visit config.row.length dir start 1 = wrapStep config.row.length dir start := rfl
    have h0 := hnone 0 (by omega)
    rw [hv] at h0
    unfold findLoop
    dsimp only
    rw [h0]
    rw [visit_succ_shift config.row.length dir start (k + 1)] at hmatch ⊢
    exact ih f (wrapStep config.row.length dir start) lm (by omega)
      (fun j hj => by
        have hj2 := hnone (j + 1) (by omega)
        rwa [visit_succ_shift config.row.length dir start (j + 1)] at hj2)
      pos hmatch

lemma wrapStep_forward (len : Nat) (hlen : 0 < len) (current : Int)
    (h1 : -1 ≤ current) (h2 : current < (len : Int)) :
    wrapStep len 1 current = (current + 1) % (len : Int) := by
  unfold wrapStep
  dsimp only
  rw [if_neg (by omega)]
  by_cases h3 : current + 1 = (len : Int)
  · rw [if_pos h3, h3]
    exact Int.emod_self.symm
  · rw [if_neg h3]
    exact (Int.emod_eq_of_lt (by omega) (by omega)).symm

lemma wrapStep_backward (len : Nat) (hlen : 0 < len) (current : Int)
    (h1 : 0 ≤ current) (h2 : current < (len : Int)) :
    wrapStep len (-1) current = (current - 1) % (len : Int) := by
  unfold wrapStep
  dsimp only
  by_cases h3 : current + -1 = -1
  · rw [if_pos h3]
    have hc : current = 0 := by omega
    subst hc
    have h := Int.add_mul_emod_self_left ((len : Int) - 1) (len : Int) (-1)
    rw [show ((len : Int) - 1) % (len : Int) = (len : Int) - 1 from
      Int.emod_eq_of_lt (by omega) (by omega)] at h
    rw [show (len : Int) - 1 + (len : Int) * (-1) = 0 - 1 by ring] at h
    exact h.symm
  · rw [if_neg h3, if_neg (by omega)]
    rw [show (current - 1) % (len : Int) = current - 1 from
      Int.emod_eq_of_lt (by omega) (by omega)]
    omega

lemma visit_mod (len : Nat) (hlen : 0 < len) (dir start : Int)
    (hdir : dir = 1 ∨ dir = -1)
    (h1 : -1 ≤ start) (h2 : start < (len : Int)) (h3 : dir = -1 → 0 ≤ start) :
    ∀ k : Nat, 1 ≤ k → visit len dir start k = (start + k * dir) % (len : Int) := by
  intro k
  induction k with
  | zero => intro h; omega
  | succ n ih =>
    intro _
    cases Nat.eq_zero_or_pos n with
    | inl h0 =>
      subst h0
      show wrapStep len dir start = (start + ((0 : Nat) + 1 : Nat) * dir) % (len : Int)
      rcases hdir with hd | hd
      · subst hd
        rw [wrapStep_forward len hlen start h1 h2]
        congr 1
      · subst hd
        rw [wrapStep_backward len hlen start (h3 rfl) h2]
        congr 1
    | inr hpos =>
      have ihn := ih hpos
      show wrapStep len dir (visit len dir start n) = _
      rw [ihn]
      have hne : ((len : Int)) ≠ 0 := by omega
      have hnn : 0 ≤ (start + n * dir) % (len : Int) := Int.emod_nonneg _ hne
      have hlt : (start + n * dir) % (len : Int) < (len : Int) :=
        Int.emod_lt_of_pos _ (by omega)
      rcases hdir with hd | hd
      · subst hd
        rw [wrapStep_forward len hlen _
          (le_trans (by norm_num : (-1 : Int) ≤ 0) hnn) hlt]
        rw [Int.emod_add_emod]
        congr 1
        push_cast
        ring
      · subst hd
        rw [wrapStep_backward len hlen _ hnn hlt]
        rw [sub_eq_add_neg, Int.emod_add_emod]
        congr 1
        push_cast
        ring

/-- C6: for a forward/backward motion, the scan starts one step in the
effective direction from `last_match` (forced forward when there is no
previous match) and, on the first visited row whose render contains the
query, sets `cy` to that row index, `cx` to `row_rx_to_cx` of the match's
render offset, records the row in `last_match` and sets `row_offset` to
`rows.length`, past the buffer end (first conjunct, universal in the
buffer, state, query, and the number `k < rows.length` of non-matching rows
skipped). The second conjunct shows the visited index sequence wraps
modulo `rows.length` in both directions: the index after `k` steps is
`(start + k * direction) mod rows.length`. The third conjunct: when no row
matches, the configuration is untouched, for every state and key. The
final conjunct is the `"lo"` over `["hello","world"]` no-prior-match
scenario landing at row 0, content column 3. -/
theorem C6_find_callback :
    (∀ (config : EditorConfig) (st : FindState) (query : List Char) (code : KeyCode)
        (dir start : Int) (k pos : Nat),
      ((code = KeyCode.Right ∨ code = KeyCode.Down) ∧ dir = 1 ∧ start = st.last_match ∨
       (code = KeyCode.Left ∨ code = KeyCode.Up) ∧ st.last_match ≠ -1 ∧ dir = -1 ∧
         start = st.last_match ∨
       (code = KeyCode.Left ∨ code = KeyCode.Up) ∧ st.last_match = -1 ∧ dir = 1 ∧
         start = -1) →
      k < config.row.length →
      (∀ j : Nat, j < k →
        findSub query
          ((config.row.getD (visit config.row.length dir start (j + 1)).toNat default).render)
          = none) →
      findSub query
        ((config.row.getD (visit config.row.length dir start (k + 1)).toNat default).render)
        = some pos →
      find_callback config st query code =
        ({ config with
            cy := (visit config.row.length dir start (k + 1)).toNat,
            cx := row_rx_to_cx
              (config.row.getD (visit config.row.length dir start (k + 1)).toNat default)
              pos,
            row_off := config.row.length },
          { last_match := visit config.row.length dir start (k + 1), direction := dir })) ∧
    (∀ (len : Nat) (dir start : Int) (k : Nat),
      0 < len → (dir = 1 ∨ dir = -1) → -1 ≤ start → start < (len : Int) →
      (dir = -1 → 0 ≤ start) → 1 ≤ k →
      visit len dir start k = (start + k * dir) % (len : Int)) ∧
    (∀ (config : EditorConfig) (st : FindState) (query : List Char) (code : KeyCode),
      query ≠ [] →
      (∀ r ∈ config.row, findSub query r.render = none) →
      (find_callback config st query code).1 = config) ∧
    ((find_callback (insert_row (insert_row emptyEC 0 "hello".toList) 1 "world".toList)
        ⟨-1, 1⟩ "lo".toList (KeyCode.Char 'l')).1.cy = 0 ∧
     (find_callback (insert_row (insert_row emptyEC 0 "hello".toList) 1 "world".toList)
        ⟨-1, 1⟩ "lo".toList (KeyCode.Char 'l')).1.cx = 3 ∧
     (find_callback (insert_row (insert_row emptyEC 0 "hello".toList) 1 "world".toList)
        ⟨-1, 1⟩ "lo".toList (KeyCode.Char 'l')).2.last_match = 0 ∧
     (find_callback (insert_row (insert_row emptyEC 0 "hello".toList) 1 "world".toList)
        ⟨-1, 1⟩ "lo".toList (KeyCode.Char 'l')).1.row_off = 2) := by
  refine ⟨?_, ?_, ?_, ?_⟩
  · intro config st query code dir start k pos hkey hk hnone hmatch
    rcases hkey with ⟨hc, hd, hs⟩ | ⟨hc, hm, hd, hs⟩ | ⟨hc, hm, hd, hs⟩
    · subst hd; subst hs
      unfold find_callback
      rw [if_neg (by rcases hc with h | h <;> subst h <;> decide), if_pos hc]
      dsimp only
      by_cases hm : st.last_match = (-1 : Int)
      · rw [if_pos hm]
        dsimp only
        rw [findLoop_first_match config query 1 k config.row.length
          st.last_match st.last_match hk hnone pos hmatch]
      · rw [if_neg hm]
        dsimp only
        rw [findLoop_first_match config query 1 k config.row.length
          st.last_match st.last_match hk hnone pos hmatch]
    · subst hd; subst hs
      unfold find_callback
      rw [if_neg (by rcases hc with h | h <;> subst h <;> decide),
        if_neg (by rcases hc with h | h <;> subst h <;> decide), if_pos hc]
      dsimp only
      rw [if_neg hm]
      dsimp only
      rw [findLoop_first_match config query (-1) k config.row.length
        st.last_match st.last_match hk hnone pos hmatch]
    · subst hd; subst hs
      unfold find_callback
      rw [if_neg (by rcases hc with h | h <;> subst h <;> decide),
        if_neg (by rcases hc with h | h <;> subst h <;> decide), if_pos hc]
      dsimp only
      rw [hm, if_pos rfl]
      dsimp only
      rw [findLoop_first_match config query 1 k config.row.length (-1) (-1)
        hk hnone pos hmatch]
  · intro len dir start k hlen hdir h1 h2 h3 hk
    exact visit_mod len hlen dir start hdir h1 h2 h3 k hk
  · intro config st query code hq hnone
    unfold find_callback
    by_cases hE : code = KeyCode.Enter
    · rw [if_pos hE]
    · rw [if_neg hE]
      dsimp only
      rw [findLoop_no_match config query hq hnone]
  · exact ⟨by decide, by decide, by decide, by decide⟩

/-- The buffer `["world","hello"]` used by the C6 witness. -/
def cfgW : EditorConfig :=
  insert_row (insert_row emptyEC 0 "world".toList) 1 "hello".toList

/-- C6 witness: the universal match-case clause at a concrete input — a
forward motion from a previous match on row 0 over `["world","hello"]`
finds `"lo"` on the next visited row. -/
theorem C6_witness :
    find_callback cfgW ⟨0, 1⟩ "lo".toList KeyCode.Right =
      ({ cfgW with
          cy := (visit cfgW.row.length 1 0 (0 + 1)).toNat,
          cx := row_rx_to_cx
            (cfgW.row.getD (visit cfgW.row.length 1 0 (0 + 1)).toNat default) 3,
          row_off := cfgW.row.length },
        { last_match := visit cfgW.row.length 1 0 (0 + 1), direction := 1 }) :=
  C6_find_callback.1 cfgW ⟨0, 1⟩ "lo".toList KeyCode.Right 1 0 0 3
    (Or.inl ⟨Or.inl rfl, rfl, rfl⟩) (by decide)
    (fun j hj => absurd hj (Nat.not_lt_zero j)) (by decide)

/-! ## File round trip (C8) -/

lemma rows_to_string_foldr : ∀ (rows : List Row) (init : List Char),
    rows.foldl (fun output r => output ++ r.content ++ ['\n']) init
      = init ++ rows.foldr (fun r acc => r.content ++ '\n' :: acc) [] := by
  intro rows
  induction rows with
  | nil => intro init; simp
  | cons r rs ih =>
    intro init
    simp only [List.foldl_cons, List.foldr_cons]
    rw [ih]
    simp [List.append_assoc]

lemma linesAux_no_nl : ∀ (line acc rest : List Char), '\n' ∉ line →
    linesAux acc (line ++ rest) = linesAux (acc ++ line) rest := by
  intro line
  induction line with
  | nil => intro acc rest _; simp
  | cons c cs ih =>
    intro acc rest h
    have hc : ¬ c = '\n' := fun e => h (by simp [e])
    simp only [List.cons_append, linesAux, if_neg hc, List.append_eq]
    rw [ih (acc ++ [c]) rest (fun hm => h (List.mem_cons_of_mem c hm))]
    simp [List.append_assoc]

lemma dropTrailingCr_id (l : List Char) (h : l.getLast? ≠ some (Char.ofNat 13)) :
    dropTrailingCr l = l := by
  unfold dropTrailingCr
  rw [if_neg h]

lemma linesOf_rows : ∀ (rows : List Row),
    (∀ r ∈ rows, '\n' ∉ r.content ∧ r.content.getLast? ≠ some (Char.ofNat 13)) →
    linesOf (rows.foldr (fun r acc => r.content ++ '\n' :: acc) [])
      = rows.map Row.content := by
  intro rows
  induction rows with
  | nil => intro _; rfl
  | cons r rs ih =>
    intro h
    have hr := h r (List.mem_cons_self r rs)
    simp only [List.foldr_cons, List.map_cons]
    unfold linesOf
    rw [show (r.content ++ '\n' :: rs.foldr (fun r acc => r.content ++ '\n' :: acc) [])
        = r.content ++ ('\n' :: rs.foldr (fun r acc => r.content ++ '\n' :: acc) []) from rfl,
      linesAux_no_nl r.content [] _ hr.1]
    simp only [List.nil_append, linesAux, if_pos rfl]
    rw [dropTrailingCr_id r.content hr.2]
    exact congrArg (r.content :: ·) (ih fun x hx => h x (List.mem_cons_of_mem r hx))

lemma insert_row_syn (config : EditorConfig) (atIdx : Nat) (s : List Char) :
    (insert_row config atIdx s).syn = config.syn := by
  unfold insert_row; split <;> rfl

lemma openRows_contents : ∀ (ls : List (List Char)) (config : EditorConfig),
    (ls.foldl (fun cfg line => insert_row cfg cfg.row.length line) config).row.map Row.content
      = config.row.map Row.content ++ ls := by
  intro ls
  induction ls with
  | nil => intro config; simp
  | cons l rest ih =>
    intro config
    simp only [List.foldl_cons]
    rw [ih]
    have h1 : (insert_row config config.row.length l).row
        = config.row ++ [update_row config.syn ⟨l, [], 0, []⟩] := by
      rw [insert_row_rows config _ l le_rfl, List.take_length, List.drop_length]
    rw [h1]
    simp [update_row_content]

/-- C8 (amended): serializing a buffer (each row's content followed by a
newline, including after the last row) and re-loading the text line by line
reproduces exactly the original sequence of row contents, provided no
content contains a newline character and no content ends with a carriage
return (the loader strips one trailing CR from every line). -/
theorem C8_save_load_round_trip :
    ∀ (rows : List Row),
      (∀ r ∈ rows, '\n' ∉ r.content ∧ r.content.getLast? ≠ some (Char.ofNat 13)) →
      (openRows emptyEC (rows_to_string rows)).row.map Row.content
        = rows.map Row.content := by
  intro rows h
  unfold openRows
  dsimp only
  rw [openRows_contents]
  unfold rows_to_string
  rw [rows_to_string_foldr rows []]
  simp only [List.nil_append, emptyEC]
  exact linesOf_rows rows h

/-- C8 counterexample: a row whose content is `a` followed by a carriage
return (no newline character anywhere) does not survive the round trip —
it reloads as just `a`. -/
theorem C8_trailing_cr_breaks_round_trip :
    (openRows emptyEC (rows_to_string [⟨['a', Char.ofNat 13], [], 0, []⟩])).row.map Row.content
      = [['a']] ∧ (['a', Char.ofNat 13] : List Char) ≠ ['a'] := by
  decide

/-- C8 witness: the round trip preserves the rows `["foo", "bar"]`. -/
theorem C8_witness :
    (openRows emptyEC
        (rows_to_string [⟨"foo".toList, [], 0, []⟩, ⟨"bar".toList, [], 0, []⟩])).row.map
        Row.content
      = [⟨"foo".toList, [], 0, []⟩, ⟨"bar".toList, [], 0, []⟩].map Row.content :=
  C8_save_load_round_trip [⟨"foo".toList, [], 0, []⟩, ⟨"bar".toList, [], 0, []⟩] (by decide)

/-! ## Edit engine (C7, C9) -/

lemma take_succ_set {α : Type} : ∀ (l : List α) (m : Nat) (x : α), m < l.length →
    (l.set m x).take (m + 1) = l.take m ++ [x] := by
  intro l
  induction l with
  | nil => intro m x h; simp at h
  | cons a l ih =>
    intro m x h
    cases m with
    | zero => rfl
    | succ n =>
      show a :: (l.set n x).take (n + 1) = a :: (l.take n ++ [x])
      rw [ih n x (by simp at h; omega)]

lemma take_succ_eq {α : Type} [Inhabited α] : ∀ (l : List α) (n : Nat), n < l.length →
    l.take (n + 1) = l.take n ++ [l.getD n default] := by
  intro l
  induction l with
  | nil => intro n h; simp at h
  | cons a l ih =>
    intro n h
    cases n with
    | zero => rfl
    | succ m =>
      show a :: l.take (m + 1) = a :: (l.take m ++ [l.getD m default])
      rw [ih m (by simp at h; omega)]

lemma getD_append_left {α : Type} : ∀ (l₁ l₂ : List α) (i : Nat) (d : α),
    i < l₁.length → (l₁ ++ l₂).getD i d = l₁.getD i d := by
  intro l₁
  induction l₁ with
  | nil => intro l₂ i d h; simp at h
  | cons a l ih =>
    intro l₂ i d h
    cases i with
    | zero => rfl
    | succ n => exact ih l₂ n d (by simp at h; omega)

lemma getD_take {α : Type} : ∀ (l : List α) (m i : Nat) (d : α),
    i < m → (l.take m).getD i d = l.getD i d := by
  intro l
  induction l with
  | nil => intro m i d _; simp
  | cons a l ih =>
    intro m i d h
    cases m with
    | zero => omega
    | succ m2 =>
      cases i with
      | zero => rfl
      | succ n => exact ih m2 n d (by omega)

lemma row_del_char_content (rule : Option SynRule) (row : Row) (a : Nat)
    (h : a < row.content.length) :
    (row_del_char rule row a).content = row.content.take a ++ row.content.drop (a + 1) := by
  unfold row_del_char
  rw [if_neg (by omega), update_row_content]
  rfl

lemma row_append_string_content (rule : Option SynRule) (row : Row) (s : List Char) :
    (row_append_string rule row s).content = row.content ++ s := by
  unfold row_append_string
  rw [update_row_content]

/-- C7: `del_char` is a no-op at the true buffer start and on the virtual
past-end row; with `cx > 0` it removes the character left of the cursor and
decrements `cx`; with `cx = 0` on a later row it appends the current row's
content onto the previous row, sets `cx` to the previous row's pre-join
length, deletes the current row and decrements `cy`; the non-no-op branches
mark dirty. On rows `["foo","bar"]` at `cx = 0, cy = 1` the result is the
single row `"foobar"` with the cursor at `cx = 3, cy = 0`. -/
theorem C7_del_char :
    (∀ config : EditorConfig,
      (config.cx = 0 ∧ config.cy = 0 → del_char config = config) ∧
      (config.cy = config.row.length → del_char config = config) ∧
      (config.cy < config.row.length → 0 < config.cx →
        config.cx ≤ (config.row.getD config.cy default).content.length →
        ((del_char config).row.map Row.content =
            (config.row.map Row.content).set config.cy
              ((config.row.getD config.cy default).content.take (config.cx - 1) ++
               (config.row.getD config.cy default).content.drop config.cx) ∧
          (del_char config).cx = config.cx - 1 ∧
          (del_char config).cy = config.cy ∧
          (del_char config).dirty = true)) ∧
      (config.cx = 0 → 0 < config.cy → config.cy < config.row.length →
        ((del_char config).row.map Row.content =
            (config.row.map Row.content).take (config.cy - 1) ++
              ((config.row.getD (config.cy - 1) default).content ++
               (config.row.getD config.cy default).content) ::
              (config.row.map Row.content).drop (config.cy + 1) ∧
          (del_char config).cx = (config.row.getD (config.cy - 1) default).content.length ∧
          (del_char config).cy = config.cy - 1 ∧
          (del_char config).dirty = true))) ∧
    ((del_char { (insert_row (insert_row emptyEC 0 "foo".toList) 1 "bar".toList) with
        cx := 0, cy := 1 }).row.map Row.content = ["foobar".toList] ∧
     (del_char { (insert_row (insert_row emptyEC 0 "foo".toList) 1 "bar".toList) with
        cx := 0, cy := 1 }).cx = 3 ∧
     (del_char { (insert_row (insert_row emptyEC 0 "foo".toList) 1 "bar".toList) with
        cx := 0, cy := 1 }).cy = 0) := by
  constructor
  · intro config
    refine ⟨?_, ?_, ?_, ?_⟩
    · rintro ⟨hx, hy⟩
      unfold del_char
      by_cases h : config.cy = config.row.length
      · rw [if_pos h]
      · rw [if_neg h, if_pos ⟨hx, hy⟩]
    · intro h
      unfold del_char
      rw [if_pos h]
    · intro hcy hcx hle
      unfold del_char
      rw [if_neg (by omega), if_neg (by rintro ⟨h1, _⟩; omega), if_pos hcx]
      dsimp only
      refine ⟨?_, rfl, rfl, rfl⟩
      rw [List.map_set, row_del_char_content _ _ _ (by omega)]
      have e : config.cx - 1 + 1 = config.cx := by omega
      rw [e]
    · intro hx hcy hlen
      obtain ⟨n, hn⟩ : ∃ n, config.cy = n + 1 := ⟨config.cy - 1, by omega⟩
      unfold del_char
      rw [if_neg (by omega), if_neg (by rintro ⟨_, h2⟩; omega), if_neg (by omega)]
      dsimp only
      unfold del_row
      rw [if_neg (by simp only [List.length_set]; omega)]
      dsimp only
      refine ⟨?_, rfl, rfl, rfl⟩
      unfold listRemove
      rw [hn]
      simp only [Nat.add_sub_cancel]
      rw [take_succ_set config.row n _ (by omega),
        List.drop_set_of_lt _ _ (by omega : n < n + 1 + 1)]
      simp only [List.map_append, List.map_take, List.map_drop, List.map_cons,
        List.map_nil]
      rw [row_append_string_content]
      simp [List.append_assoc]
  · exact ⟨by decide, by decide, by decide⟩

/-- C7 witness: the join branch at a concrete buffer. -/
theorem C7_witness :
    (del_char { (insert_row (insert_row emptyEC 0 "ab".toList) 1 "cd".toList) with
        cx := 0, cy := 1 }).cy = 1 - 1 :=
  (((C7_del_char.1 { (insert_row (insert_row emptyEC 0 "ab".toList) 1 "cd".toList) with
      cx := 0, cy := 1 }).2.2.2) (by decide) (by decide) (by decide)).2.2.1

lemma insert_row_cursor (config : EditorConfig) (atIdx : Nat) (s : List Char) :
    (insert_row config atIdx s).cx = config.cx ∧
    (insert_row config atIdx s).cy = config.cy ∧
    (insert_row config atIdx s).syn = config.syn := by
  unfold insert_row; split <;> exact ⟨rfl, rfl, rfl⟩

lemma set_take_succ {α : Type} : ∀ (l : List α) (n : Nat) (y : α), n < l.length →
    (l.take (n + 1)).set n y = l.take n ++ [y] := by
  intro l
  induction l with
  | nil => intro n y h; simp at h
  | cons a l ih =>
    intro n y h
    cases n with
    | zero => rfl
    | succ m =>
      show a :: (l.take (m + 1)).set m y = a :: (l.take m ++ [y])
      rw [ih m y (by simp at h; omega)]

/-- C9: `insert_newline` at `cx = 0` inserts an empty row before the
current row; at `cx > 0` it splits the current row at `cx`, so the current
row keeps `content[0..cx)` and a new row holding `content[cx..]` sits
immediately after; in both cases `cy` is incremented and `cx` becomes 0.
At `cx = 2` on the single row `"hello"` the rows become `"he"`, `"llo"`
with the cursor at the next row, `cx = 0`. -/
theorem C9_insert_newline :
    (∀ config : EditorConfig,
      (config.cx = 0 → config.cy ≤ config.row.length →
        ((insert_newline config).row.map Row.content =
            (config.row.map Row.content).take config.cy ++
              [] :: (config.row.map Row.content).drop config.cy ∧
          (insert_newline config).cy = config.cy + 1 ∧
          (insert_newline config).cx = 0 ∧
          (insert_newline config).dirty = true)) ∧
      (0 < config.cx → config.cy < config.row.length →
        ((insert_newline config).row.map Row.content =
            (config.row.map Row.content).take config.cy ++
              (config.row.getD config.cy default).content.take config.cx ::
              (config.row.getD config.cy default).content.drop config.cx ::
              (config.row.map Row.content).drop (config.cy + 1) ∧
          (insert_newline config).cy = config.cy + 1 ∧
          (insert_newline config).cx = 0 ∧
          (insert_newline config).dirty = true))) ∧
    ((insert_newline { (insert_row emptyEC 0 "hello".toList) with cx := 2, cy := 0 }).row.map
        Row.content = ["he".toList, "llo".toList] ∧
     (insert_newline { (insert_row emptyEC 0 "hello".toList) with cx := 2, cy := 0 }).cy = 1 ∧
     (insert_newline { (insert_row emptyEC 0 "hello".toList) with cx := 2, cy := 0 }).cx = 0) := by
  constructor
  · intro config
    constructor
    · intro hx hle
      unfold insert_newline
      rw [if_pos hx]
      dsimp only
      refine ⟨?_, by rw [(insert_row_cursor config config.cy []).2.1], rfl, rfl⟩
      rw [insert_row_rows config config.cy [] hle]
      simp [update_row_content]
    · intro hcx hcy
      unfold insert_newline
      rw [if_neg (by omega)]
      dsimp only
      have hcur := insert_row_cursor config (config.cy + 1)
        ((config.row.getD config.cy default).content.drop config.cx)
      refine ⟨?_, by rw [hcur.2.1], rfl, rfl⟩
      rw [insert_row_rows config (config.cy + 1)
        ((config.row.getD config.cy default).content.drop config.cx) (by omega),
        hcur.1, hcur.2.1, hcur.2.2]
      rw [getD_append_left _ _ config.cy default (by rw [List.length_take]; omega),
        getD_take config.row (config.cy + 1) config.cy default (by omega)]
      rw [List.set_append, if_pos (by rw [List.length_take]; omega)]
      rw [set_take_succ config.row config.cy _ (by omega)]
      simp only [List.map_append, List.map_take, List.map_cons, List.map_drop,
        List.map_nil, update_row_content]
      simp [List.append_assoc]
  · exact ⟨by decide, by decide, by decide⟩

/-- C9 witness: on the empty buffer at `cx = 0` the cursor moves to the
start of the next row. -/
theorem C9_witness :
    (insert_newline emptyEC).cy = emptyEC.cy + 1 :=
  ((C9_insert_newline.1 emptyEC).1 (by decide) (by decide)).2.1

end KiloRs
